import Mathlib

/-!
# Verification of the S3 virtual-filesystem lookup and caching engine

This file gives a shallow embedding, in Lean 4, of the core components of the
s3-filesystem repository: the pattern matcher and fixed-prefix extraction
(`src/find-files.ts`), the manifest-backed and remote-listing file finder
(`src/find-files.ts`), the directory index (`DirectorySchema` in
`src/server.ts`), the LRU content cache (`src/s3-file-cache.ts`), the
in-process grep (`grepFiles`), the glob tool handler (`src/tools/glob.ts`),
and the directory-collapsing read tool (`src/tools/read.ts`).

JavaScript strings are modelled as Lean `String`, with the JS operations
(`split`, `startsWith`, `endsWith`, `slice`, `+`) modelled as explicit
functions on the underlying character list (`String.data`).  Keys, patterns
and URIs are kept at the string level exactly as the source manipulates them.
-/

namespace S3FS

/-- Model of JS `s.split(c)` for a one-character separator: splits into the
(nonempty) list of chunks between separators, keeping empty chunks, so that
`"a//b".split('/') = ["a", "", "b"]` and `"".split('/') = [""]`. -/
def splitChar (c : Char) : List Char → List (List Char)
  | [] => [[]]
  | x :: xs =>
    if x = c then [] :: splitChar c xs
    else
      match splitChar c xs with
      | [] => [[x]]
      | s :: rest => (x :: s) :: rest

/-- Inverse of `splitChar`: join chunks with the separator. -/
def joinChar (c : Char) : List (List Char) → List Char
  | [] => []
  | [s] => s
  | s :: rest => s ++ c :: joinChar c rest

theorem splitChar_ne_nil (c : Char) (l : List Char) : splitChar c l ≠ [] := by
  cases l with
  | nil => simp [splitChar]
  | cons x xs =>
    simp only [splitChar]
    split
    · simp
    · split <;> simp

theorem joinChar_splitChar (c : Char) (l : List Char) :
    joinChar c (splitChar c l) = l := by
  induction l with
  | nil => rfl
  | cons x xs ih =>
    simp only [splitChar]
    by_cases hx : x = c
    · simp only [if_pos hx]
      cases hsp : splitChar c xs with
      | nil => exact absurd hsp (splitChar_ne_nil c xs)
      | cons s rest =>
        rw [hsp] at ih
        have hj : joinChar c ([] :: s :: rest) = c :: joinChar c (s :: rest) := rfl
        rw [hj, ih, hx]
    · simp only [if_neg hx]
      cases hsp : splitChar c xs with
      | nil => exact absurd hsp (splitChar_ne_nil c xs)
      | cons s rest =>
        rw [hsp] at ih
        cases rest with
        | nil =>
          have hj : joinChar c [s] = s := rfl
          rw [hj] at ih
          show joinChar c [x :: s] = x :: xs
          have : joinChar c [x :: s] = x :: s := rfl
          rw [this, ih]
        | cons r rs =>
          have hih : s ++ c :: joinChar c (r :: rs) = xs := ih
          show joinChar c ((x :: s) :: r :: rs) = x :: xs
          have : joinChar c ((x :: s) :: r :: rs) =
              (x :: s) ++ c :: joinChar c (r :: rs) := rfl
          rw [this, List.cons_append, hih]

/-- Chunks produced by `splitChar` never contain the separator. -/
theorem splitChar_not_mem (c : Char) (l : List Char) :
    ∀ s ∈ splitChar c l, c ∉ s := by
  induction l with
  | nil => intro s hs; simp [splitChar] at hs; simp [hs]
  | cons x xs ih =>
    intro s hs
    simp only [splitChar] at hs
    by_cases hx : x = c
    · rw [if_pos hx] at hs
      rcases List.mem_cons.mp hs with h | h
      · simp [h]
      · exact ih s h
    · rw [if_neg hx] at hs
      cases hsp : splitChar c xs with
      | nil => exact absurd hsp (splitChar_ne_nil c xs)
      | cons t rest =>
        rw [hsp] at hs
        rcases List.mem_cons.mp hs with h | h
        · subst h
          intro hmem
          rcases List.mem_cons.mp hmem with h | h
          · exact hx h.symm
          · exact ih t (hsp ▸ List.mem_cons_self t rest) h
        · exact ih s (hsp ▸ List.mem_cons_of_mem t h)

/-- Model of JS `a.startsWith(b)`. -/
def strStartsWith (a b : String) : Bool := b.data.isPrefixOf a.data

/-- Model of JS `a.endsWith(b)`. -/
def strEndsWith (a b : String) : Bool := b.data.isSuffixOf a.data

theorem data_append (a b : String) : (a ++ b).data = a.data ++ b.data := rfl

/-! ## Pattern matcher

The repository delegates glob evaluation to the external `minimatch` library
(not part of this repository's sources).  Modelled from the spec: `matches`
has standard glob semantics — `*` matches any run of non-separator
characters, `**` (as a whole path segment) matches across separators
(zero or more segments), `?` matches one character, `[...]` character
classes match one character; hidden dot-files are matchable (the source
always passes `dot: true`).  Brace alternation is not modelled; a `{` is
still treated as a glob metacharacter by the fixed-prefix extraction below,
exactly as in the source. -/

/-- One item of a character class: a single character or a range. -/
inductive ClsItem where
  | single (c : Char)
  | range (lo hi : Char)
deriving DecidableEq

/-- One token of a within-segment glob pattern. -/
inductive GTok where
  | lit (c : Char)
  | star
  | qmark
  | cls (neg : Bool) (items : List ClsItem)
deriving DecidableEq

/-- Scan the body of a `[...]` class up to the closing `]`; `none` when the
class is unterminated (then `[` is treated as a literal). -/
def scanClass : List Char → Option (List Char × List Char)
  | [] => none
  | ']' :: rest => some ([], rest)
  | x :: rest =>
    match scanClass rest with
    | none => none
    | some (body, after) => some (x :: body, after)

theorem scanClass_shrinks :
    ∀ l body after, scanClass l = some (body, after) → after.length < l.length := by
  intro l
  induction l with
  | nil => intro body after h; simp [scanClass] at h
  | cons x xs ih =>
    intro body after h
    by_cases hx : x = ']'
    · subst hx
      simp only [scanClass] at h
      cases h
      simp
    · rw [show scanClass (x :: xs) = (match scanClass xs with
          | none => none
          | some (body, after) => some (x :: body, after)) by
        cases xs <;> simp [scanClass, hx]] at h
      cases hsc : scanClass xs with
      | none => rw [hsc] at h; exact absurd h (by simp)
      | some p =>
        rw [hsc] at h
        obtain ⟨b0, a0⟩ := p
        simp only at h
        cases h
        exact Nat.lt_succ_of_lt (ih b0 after hsc)

/-- Parse class items: `a-b` ranges and single characters. -/
def parseClsItems : List Char → List ClsItem
  | [] => []
  | a :: '-' :: b :: rest => ClsItem.range a b :: parseClsItems rest
  | a :: rest => ClsItem.single a :: parseClsItems rest

/-- Parse a class body, handling a leading negation `!` or `^`. -/
def parseCls (body : List Char) : Bool × List ClsItem :=
  match body with
  | '!' :: rest => (true, parseClsItems rest)
  | '^' :: rest => (true, parseClsItems rest)
  | _ => (false, parseClsItems body)

/-- Tokenize one glob segment (fuelled to keep the recursion structural;
`parseSeg` supplies sufficient fuel). -/
def parseSegF : Nat → List Char → List GTok
  | 0, _ => []
  | _ + 1, [] => []
  | f + 1, c :: rest =>
    if c = '*' then GTok.star :: parseSegF f rest
    else if c = '?' then GTok.qmark :: parseSegF f rest
    else if c = '[' then
      match scanClass rest with
      | some (body, after) =>
        let (neg, items) := parseCls body
        GTok.cls neg items :: parseSegF f after
      | none => GTok.lit '[' :: parseSegF f rest
    else GTok.lit c :: parseSegF f rest

def parseSeg (l : List Char) : List GTok := parseSegF l.length l

def clsItemMatch (c : Char) : ClsItem → Bool
  | ClsItem.single a => c = a
  | ClsItem.range lo hi => lo ≤ c && c ≤ hi

def clsMatch (neg : Bool) (items : List ClsItem) (c : Char) : Bool :=
  xor neg (items.any (clsItemMatch c))

/-- Match a token list against the characters of one path segment.
`star` is expanded by trying every suffix of the text. -/
def tokMatch : List GTok → List Char → Bool
  | [], t => t.isEmpty
  | GTok.star :: ps, t => (t.tails).any (fun s => tokMatch ps s)
  | GTok.qmark :: ps, t =>
    match t with
    | [] => false
    | _ :: ts => tokMatch ps ts
  | GTok.cls neg items :: ps, t =>
    match t with
    | [] => false
    | c :: ts => clsMatch neg items c && tokMatch ps ts
  | GTok.lit a :: ps, t =>
    match t with
    | [] => false
    | c :: ts => c = a && tokMatch ps ts

/-- Glob-match one pattern segment against one path segment. -/
def segMatch (p t : List Char) : Bool := tokMatch (parseSeg p) t

/-- The globstar segment `**`. -/
def starStarSeg : List Char := ['*', '*']

/-- Match a list of pattern segments against a list of path segments.
A `**` segment matches zero or more whole path segments (expanded by trying
every suffix of the remaining path). -/
def matchSegs : List (List Char) → List (List Char) → Bool
  | [], ts => ts.isEmpty
  | p :: ps, ts =>
    if p = starStarSeg then (ts.tails).any (fun u => matchSegs ps u)
    else
      match ts with
      | [] => false
      | t :: ts' => segMatch p t && matchSegs ps ts'

/-- Model of `matchGlob(pattern, path)` (`src/find-files.ts` line 41):
`minimatch(path, pattern, { dot: true })`, with minimatch's glob semantics
modelled from the spec as described above. -/
def matchGlob (pattern path : String) : Bool :=
  matchSegs (splitChar '/' pattern.data) (splitChar '/' path.data)

/-- A glob metacharacter, as tested by `extractFixedPrefix`
(`part.includes('*') || part.includes('?') || part.includes('[') ||
part.includes('{')`). -/
def isGlobChar (c : Char) : Bool := c = '*' || c = '?' || c = '[' || c = '{'

/-- A pattern segment is literal when it contains no glob metacharacter. -/
def literalSeg (p : List Char) : Bool := !p.any isGlobChar

/-- Translation of `extractFixedPrefix` (`src/find-files.ts` lines 23-36):
split the pattern on `/`, accumulate leading segments free of glob
metacharacters, and return them joined with a trailing `/`, or the empty
string when the very first segment is already a glob. -/
def extractFixedPrefix (pattern : String) : String :=
  let parts := splitChar '/' pattern.data
  let fixedParts := parts.takeWhile literalSeg
  if fixedParts.length > 0 then ⟨joinChar '/' fixedParts ++ ['/']⟩ else ""

/-! ## File finder (`findFiles`, `src/find-files.ts` lines 49-159)

`findFiles` returns S3 URIs obtained from keys through the injective renaming
`s3KeyToURI`; the model returns the keys themselves, so sequences of
identifiers are compared through that pointwise renaming.  The remote-listing
fallback is modelled over an abstract bucket population: the keys the store
would return for the requested prefix, in listing order; pagination
(`MaxKeys`/continuation tokens) only chunks that same ordered sequence, so it
is modelled as a single in-order pass with the same early-exit points. -/

/-- JS truthiness of `maxResults && matched.length >= maxResults`:
a cap of `0` is falsy and means "no cap". -/
def capReached (maxResults : Option Nat) (len : Nat) : Bool :=
  match maxResults with
  | some m => decide (0 < m) && decide (m ≤ len)
  | none => false

/-- Model of `pattern.match(/^\*\*\/(.+)$/)`: the characters after a leading
`**​/`, provided they are nonempty and contain no line terminator (JS `.`
does not match `\n` or `\r`). -/
def simpleSuffix (pattern : String) : Option (List Char) :=
  match pattern.data with
  | '*' :: '*' :: '/' :: rest =>
    if rest ≠ [] ∧ '\n' ∉ rest ∧ '\r' ∉ rest then some rest else none
  | _ => none

/-- `file.split('/').pop() || ''`: the final path segment. -/
def lastSegOf (file : String) : String :=
  ⟨(splitChar '/' file.data).getLast (splitChar_ne_nil '/' file.data)⟩

/-- The per-file match step of the manifest loop: the fast path matches only
the filename against the captured suffix; the general path runs `matchGlob`
on the whole key. -/
def manifestIsMatch (pattern : String) (simple : Option (List Char))
    (file : String) : Bool :=
  match simple with
  | some s => matchGlob ⟨s⟩ (lastSegOf file)
  | none => matchGlob pattern file

/-- The manifest iteration of `findFiles` (lines 76-99): prefix pruning, the
match step, and early return once `maxResults` is reached. -/
def manifestLoop (pattern fullPrefix : String) (simple : Option (List Char))
    (maxResults : Option Nat) : List String → Nat → List String
  | [], _ => []
  | f :: fs, n =>
    if fullPrefix = "" || strStartsWith f fullPrefix then
      if manifestIsMatch pattern simple f then
        if capReached maxResults (n + 1) then [f]
        else f :: manifestLoop pattern fullPrefix simple maxResults fs (n + 1)
      else manifestLoop pattern fullPrefix simple maxResults fs n
    else manifestLoop pattern fullPrefix simple maxResults fs n

/-- The manifest path of `findFiles` (lines 65-99). `basePfx` is the
configured `prefix` option. -/
def findFilesManifest (pattern basePfx : String) (maxResults : Option Nat)
    (files : List String) : List String :=
  let fixedPfx := extractFixedPrefix pattern
  let fullPrefix := if basePfx = "" then fixedPfx else basePfx ++ fixedPfx
  let simple :=
    match simpleSuffix pattern with
    | some s => if '/' ∈ s then none else some s
    | none => none
  manifestLoop pattern fullPrefix simple maxResults files 0

/-- JS `key.slice(prefixLen)` on characters. -/
def strSlice (s : String) (n : Nat) : String := ⟨s.data.drop n⟩

/-- The remote-listing iteration of `findFiles` (lines 131-145): skip
directory markers, strip the configured prefix, match the full pattern, stop
at `maxResults`. -/
def remoteLoop (pattern basePfx : String) (maxResults : Option Nat) :
    List String → Nat → List String
  | [], _ => []
  | k :: ks, n =>
    if strEndsWith k "/" then remoteLoop pattern basePfx maxResults ks n
    else
      let matchPath := if strStartsWith k basePfx then strSlice k basePfx.length else k
      if matchGlob pattern matchPath then
        if capReached maxResults (n + 1) then [k]
        else k :: remoteLoop pattern basePfx maxResults ks (n + 1)
      else remoteLoop pattern basePfx maxResults ks n

/-- The remote-listing fallback path of `findFiles` (lines 102-158), over the
abstract bucket `population` (all keys in listing order): the store filters
the listing by the combined prefix, and the loop applies the per-item logic.  -/
def findFilesRemote (pattern basePfx : String) (maxResults : Option Nat)
    (population : List String) : List String :=
  let fixedPfx := extractFixedPrefix pattern
  let fullPrefix := if basePfx = "" then fixedPfx else basePfx ++ fixedPfx
  remoteLoop pattern basePfx maxResults
    (population.filter (fun k => strStartsWith k fullPrefix)) 0

/-! ## Pattern matcher lemmas -/

/-- A segment without metacharacters tokenizes to plain literals. -/
theorem parseSegF_literal :
    ∀ f l, l.any isGlobChar = false → l.length ≤ f →
      parseSegF f l = l.map GTok.lit := by
  intro f
  induction f with
  | zero =>
    intro l _ hlen
    have : l = [] := List.eq_nil_of_length_eq_zero (Nat.le_zero.mp hlen)
    subst this; rfl
  | succ f ih =>
    intro l hlit hlen
    cases l with
    | nil => rfl
    | cons c rest =>
      simp only [List.any_cons, Bool.or_eq_false_iff] at hlit
      obtain ⟨hc, hrest⟩ := hlit
      simp only [isGlobChar, Bool.or_eq_false_iff, decide_eq_false_iff_not] at hc
      obtain ⟨⟨⟨h1, h2⟩, h3⟩, _⟩ := hc
      simp only [parseSegF, if_neg h1, if_neg h2, if_neg h3, List.map_cons]
      rw [ih rest hrest (Nat.le_of_succ_le_succ hlen)]

theorem parseSeg_literal (p : List Char) (h : literalSeg p = true) :
    parseSeg p = p.map GTok.lit := by
  have : p.any isGlobChar = false := by
    simpa [literalSeg] using h
  exact parseSegF_literal p.length p this (Nat.le_refl _)

/-- A pure-literal token list matches exactly its own text. -/
theorem tokMatch_lits : ∀ l t, tokMatch (l.map GTok.lit) t = decide (t = l) := by
  intro l
  induction l with
  | nil =>
    intro t
    cases t <;> simp [tokMatch, List.isEmpty]
  | cons a l ih =>
    intro t
    cases t with
    | nil => simp [tokMatch]
    | cons c ts =>
      simp only [List.map_cons, tokMatch, ih]
      by_cases hc : c = a
      · subst hc; simp
      · simp [hc]

/-- A literal segment glob-matches exactly itself. -/
theorem segMatch_literal (p : List Char) (h : literalSeg p = true) (t : List Char) :
    segMatch p t = decide (t = p) := by
  rw [segMatch, parseSeg_literal p h, tokMatch_lits]

theorem starStarSeg_not_literal : literalSeg starStarSeg = false := by decide

/-- Consuming a block of literal pattern segments forces the path to start
with exactly those segments. -/
theorem matchSegs_literal_prefix :
    ∀ fixed rest ts, (∀ p ∈ fixed, literalSeg p = true) →
      matchSegs (fixed ++ rest) ts = true →
      ∃ us, ts = fixed ++ us ∧ matchSegs rest us = true := by
  intro fixed
  induction fixed with
  | nil => intro rest ts _ h; exact ⟨ts, rfl, h⟩
  | cons p fx ih =>
    intro rest ts hlit h
    have hp : literalSeg p = true := hlit p (List.mem_cons_self p fx)
    have hpss : p ≠ starStarSeg := by
      intro he
      rw [he, starStarSeg_not_literal] at hp
      exact Bool.false_ne_true hp
    rw [List.cons_append] at h
    simp only [matchSegs, if_neg hpss] at h
    cases ts with
    | nil => exact absurd h (by simp)
    | cons t ts' =>
      simp only [Bool.and_eq_true] at h
      obtain ⟨hseg, hrec⟩ := h
      have hseg' : t = p := by
        rwa [segMatch_literal p hp, decide_eq_true_eq] at hseg
      obtain ⟨us, hus, hm⟩ := ih rest ts' (fun q hq => hlit q (List.mem_cons_of_mem p hq)) hrec
      exact ⟨us, by rw [hseg', hus, List.cons_append], hm⟩

theorem joinChar_cons (c : Char) (a : List Char) (l : List (List Char)) (h : l ≠ []) :
    joinChar c (a :: l) = a ++ c :: joinChar c l := by
  cases l with
  | nil => exact absurd rfl h
  | cons b bs => rfl

theorem joinChar_append (c : Char) :
    ∀ as bs, as ≠ [] → bs ≠ [] →
      joinChar c (as ++ bs) = joinChar c as ++ c :: joinChar c bs := by
  intro as
  induction as with
  | nil => intro bs h _; exact absurd rfl h
  | cons a as ih =>
    intro bs _ hbs
    cases as with
    | nil =>
      simp only [List.nil_append, List.cons_append]
      rw [joinChar_cons c a bs hbs]
      rfl
    | cons a2 as2 =>
      rw [List.cons_append, joinChar_cons c a (a2 :: as2 ++ bs) (by simp),
        joinChar_cons c a (a2 :: as2) (by simp), ih bs (by simp) hbs]
      simp [List.append_assoc]

/-- If the path's segments extend the literal block by at least one segment,
the raw path string starts with the extracted fixed prefix. -/
theorem strStartsWith_of_parts (f : String) (fixed us : List (List Char))
    (hsp : splitChar '/' f.data = fixed ++ us) (hfx : fixed ≠ []) (hus : us ≠ []) :
    strStartsWith f ⟨joinChar '/' fixed ++ ['/']⟩ = true := by
  have hdata : f.data = joinChar '/' (fixed ++ us) := by
    rw [← hsp, joinChar_splitChar]
  rw [joinChar_append '/' fixed us hfx hus] at hdata
  show (joinChar '/' fixed ++ ['/']).isPrefixOf f.data = true
  rw [List.isPrefixOf_iff_prefix, hdata]
  exact ⟨joinChar '/' us, by simp⟩

/-- The non-literal tail of the pattern's segment list. -/
def globRemainder (pattern : String) : List (List Char) :=
  (splitChar '/' pattern.data).dropWhile literalSeg

/-- The condition under which fixed-prefix pruning is harmless: either no
prefix is extracted, or the pattern's glob remainder exists and cannot match
zero path segments (so every match extends the literal block). -/
def pruneSafe (pattern : String) : Prop :=
  extractFixedPrefix pattern = "" ∨
    (globRemainder pattern ≠ [] ∧ matchSegs (globRemainder pattern) [] = false)

instance (pattern : String) : Decidable (pruneSafe pattern) := by
  unfold pruneSafe; infer_instance

/-- Prefix-pruning safety: under `pruneSafe`, every key matching the pattern
starts with the extracted fixed prefix (or the prefix is empty). -/
theorem matchGlob_imp_startsWith (pattern f : String) (hps : pruneSafe pattern)
    (hm : matchGlob pattern f = true) :
    extractFixedPrefix pattern = "" ∨
      strStartsWith f (extractFixedPrefix pattern) = true := by
  rcases hps with h | ⟨hne, hnm⟩
  · exact Or.inl h
  · set parts := splitChar '/' pattern.data with hparts
    by_cases hfx : parts.takeWhile literalSeg = []
    · left
      rw [extractFixedPrefix, ← hparts, hfx]
      simp
    · right
      have hsplit : parts = parts.takeWhile literalSeg ++ parts.dropWhile literalSeg :=
        (List.takeWhile_append_dropWhile literalSeg parts).symm
      have hlit : ∀ p ∈ parts.takeWhile literalSeg, literalSeg p = true :=
        fun p hp => List.mem_takeWhile_imp hp
      rw [matchGlob, ← hparts, hsplit] at hm
      obtain ⟨us, hus, hmrest⟩ :=
        matchSegs_literal_prefix (parts.takeWhile literalSeg)
          (parts.dropWhile literalSeg) _ hlit hm
      have husne : us ≠ [] := by
        intro he
        rw [he] at hmrest
        rw [show globRemainder pattern = parts.dropWhile literalSeg from rfl] at hnm
        rw [hnm] at hmrest
        exact Bool.false_ne_true hmrest
      have hefp : extractFixedPrefix pattern =
          ⟨joinChar '/' (parts.takeWhile literalSeg) ++ ['/']⟩ := by
        rw [extractFixedPrefix, ← hparts]
        rw [if_pos (by simpa [List.length_pos] using hfx)]
      rw [hefp]
      exact strStartsWith_of_parts f _ us hus hfx husne

/-! ## Fast path: `**​/S` against the final segment -/

theorem splitChar_eq_single (c : Char) (l : List Char) (h : c ∉ l) :
    splitChar c l = [l] := by
  induction l with
  | nil => rfl
  | cons x xs ih =>
    have hx : x ≠ c := fun he => h (he ▸ List.mem_cons_self x xs)
    have hxs : c ∉ xs := fun hm => h (List.mem_cons_of_mem x hm)
    simp only [splitChar, if_neg hx, ih hxs]

theorem splitChar_append_cons (c : Char) (a b : List Char) (h : c ∉ a) :
    splitChar c (a ++ c :: b) = a :: splitChar c b := by
  induction a with
  | nil => simp [splitChar]
  | cons x xs ih =>
    have hx : x ≠ c := fun he => h (he ▸ List.mem_cons_self x xs)
    have hxs : c ∉ xs := fun hm => h (List.mem_cons_of_mem x hm)
    rw [List.cons_append]
    simp only [splitChar, if_neg hx, ih hxs]

/-- A lone `**` matches any segment list (including the empty one). -/
theorem matchSegs_starStar_all (ts : List (List Char)) :
    matchSegs [starStarSeg] ts = true := by
  simp only [matchSegs, if_pos rfl]
  exact List.any_eq_true.mpr
    ⟨[], (List.mem_tails [] ts).mpr List.nil_suffix, by simp [matchSegs, List.isEmpty]⟩

theorem matchSegs_single_nil (s : List Char) (hs : s ≠ starStarSeg) :
    matchSegs [s] [] = false := by
  simp [matchSegs, if_neg hs]

theorem matchSegs_single_cons (s t : List Char) (ts : List (List Char))
    (hs : s ≠ starStarSeg) :
    matchSegs [s] (t :: ts) = (segMatch s t && ts.isEmpty) := by
  simp [matchSegs, if_neg hs]

/-- Core fast-path equivalence: matching `[**, S]` against a nonempty segment
list is matching `[S]` against the singleton of its final segment. -/
theorem matchSegs_fastPath (s t : List Char) (ts : List (List Char))
    (hlast : ts.getLast? = some t) :
    matchSegs [starStarSeg, s] ts = matchSegs [s] [t] := by
  by_cases hs : s = starStarSeg
  · subst hs
    have h1 : matchSegs [starStarSeg, starStarSeg] ts = true := by
      show matchSegs (starStarSeg :: [starStarSeg]) ts = true
      simp only [matchSegs, if_pos rfl]
      exact List.any_eq_true.mpr
        ⟨ts, (List.mem_tails ts ts).mpr (List.suffix_refl ts),
          matchSegs_starStar_all ts⟩
    rw [h1, matchSegs_starStar_all]
  · have hrhs : matchSegs [s] [t] = segMatch s t := by
      rw [matchSegs_single_cons s t [] hs]
      simp [List.isEmpty]
    rw [hrhs]
    show matchSegs (starStarSeg :: [s]) ts = segMatch s t
    simp only [matchSegs, if_pos rfl]
    cases hseg : segMatch s t with
    | true =>
      apply List.any_eq_true.mpr
      refine ⟨[t], (List.mem_tails [t] ts).mpr ?_, ?_⟩
      · obtain ⟨ys, hys⟩ := List.getLast?_eq_some_iff.mp hlast
        exact ⟨ys, hys.symm⟩
      · simp only [if_neg hs]
        show (segMatch s t && ([] : List (List Char)).isEmpty) = true
        simp [hseg, List.isEmpty]
    | false =>
      apply List.any_eq_false.mpr
      intro u hu
      rcases u with _ | ⟨v, vs⟩
      · simp [if_neg hs]
      · simp only [if_neg hs]
        show ¬(segMatch s v && vs.isEmpty) = true
        cases vs with
        | cons w ws => simp [List.isEmpty]
        | nil =>
          have hsuf : [v] <:+ ts := (List.mem_tails [v] ts).mp hu
          obtain ⟨pre, hpre⟩ := hsuf
          have hlv : ts.getLast? = some v := by
            rw [← hpre]
            exact List.getLast?_eq_some_iff.mpr ⟨pre, rfl⟩
          rw [hlast] at hlv
          have hv : v = t := Option.some.inj hlv.symm
          rw [hv, hseg]
          simp

/-- The filename used by the fast path is the final segment of the key. -/
theorem lastSegOf_data (f : String) :
    (splitChar '/' f.data).getLast? = some (lastSegOf f).data := by
  rw [lastSegOf]
  exact List.getLast?_eq_getLast _ (splitChar_ne_nil '/' f.data)

/-- The manifest fast path agrees with full-pattern glob matching: for a
pattern of the exact shape `**​/S` with `S` separator-free, matching the
final segment against `S` equals matching the whole path. -/
theorem fastPath_eq_matchGlob (s : List Char) (f : String)
    (hs : '/' ∉ s) :
    matchGlob ⟨s⟩ (lastSegOf f) = matchGlob ⟨'*' :: '*' :: '/' :: s⟩ f := by
  have hpat : splitChar '/' ('*' :: '*' :: '/' :: s) = [starStarSeg, s] := by
    have h1 : ('*' :: '*' :: '/' :: s) = ['*', '*'] ++ '/' :: s := rfl
    rw [h1, splitChar_append_cons '/' ['*', '*'] s (by decide),
      splitChar_eq_single '/' s hs]
    rfl
  have hlseg : '/' ∉ (lastSegOf f).data := by
    have hmem : (lastSegOf f).data ∈ splitChar '/' f.data := by
      rw [lastSegOf]
      exact List.getLast_mem (splitChar_ne_nil '/' f.data)
    exact splitChar_not_mem '/' f.data _ hmem
  rw [matchGlob, matchGlob]
  show matchSegs (splitChar '/' s) (splitChar '/' (lastSegOf f).data) =
    matchSegs (splitChar '/' ('*' :: '*' :: '/' :: s)) (splitChar '/' f.data)
  rw [hpat, splitChar_eq_single '/' s hs,
    splitChar_eq_single '/' (lastSegOf f).data hlseg,
    matchSegs_fastPath s (lastSegOf f).data (splitChar '/' f.data) (lastSegOf_data f)]

/-! ## File finder lemmas -/

/-- The fast-path selector computed by `findFilesManifest`. -/
def computedSimple (pattern : String) : Option (List Char) :=
  match simpleSuffix pattern with
  | some s => if '/' ∈ s then none else some s
  | none => none

theorem simpleSuffix_some (pattern : String) (s : List Char)
    (h : simpleSuffix pattern = some s) :
    pattern.data = '*' :: '*' :: '/' :: s := by
  unfold simpleSuffix at h
  split at h
  · rename_i rest heq
    split at h
    · injection h with h'
      rw [heq, h']
    · exact absurd h (by simp)
  · exact absurd h (by simp)

/-- The match step of the manifest loop computes exactly `matchGlob` of the
whole pattern against the whole key. -/
theorem manifestIsMatch_eq (pattern f : String) :
    manifestIsMatch pattern (computedSimple pattern) f = matchGlob pattern f := by
  unfold computedSimple
  cases hss : simpleSuffix pattern with
  | none => rfl
  | some s =>
    by_cases hsl : '/' ∈ s
    · simp only [if_pos hsl]
      rfl
    · simp only [if_neg hsl]
      show matchGlob ⟨s⟩ (lastSegOf f) = matchGlob pattern f
      rw [fastPath_eq_matchGlob s f hsl]
      have hd : pattern.data = '*' :: '*' :: '/' :: s := simpleSuffix_some pattern s hss
      show matchSegs (splitChar '/' ('*' :: '*' :: '/' :: s)) (splitChar '/' f.data) =
        matchSegs (splitChar '/' pattern.data) (splitChar '/' f.data)
      rw [hd]

/-- With no result cap, the manifest loop is a plain filter. -/
theorem manifestLoop_none (pattern fullPrefix : String) (simple : Option (List Char)) :
    ∀ files n, manifestLoop pattern fullPrefix simple none files n =
      files.filter (fun f =>
        (decide (fullPrefix = "") || strStartsWith f fullPrefix) &&
          manifestIsMatch pattern simple f) := by
  intro files
  induction files with
  | nil => intro n; rfl
  | cons f fs ih =>
    intro n
    show (if (fullPrefix = "" : Bool) || strStartsWith f fullPrefix then _ else _) = _
    by_cases hpre : ((fullPrefix = "" : Bool) || strStartsWith f fullPrefix : Bool) = true
    · rw [if_pos hpre]
      by_cases hm : manifestIsMatch pattern simple f = true
      · rw [if_pos hm]
        show (if capReached none (n + 1) = true then _ else _) = _
        rw [if_neg (by simp [capReached])]
        rw [ih (n + 1)]
        simp [List.filter_cons, hpre, hm]
      · rw [if_neg hm, ih n]
        simp only [List.filter_cons]
        rw [if_neg (by simp [Bool.and_eq_true, hm])]
    · rw [if_neg hpre, ih n]
      simp only [List.filter_cons]
      rw [if_neg (by simp_all [Bool.and_eq_true])]

/-- The prefix test of the manifest loop is just `startsWith`: an empty
`fullPrefix` is a prefix of everything. -/
theorem prefixTest_eq (fullPrefix f : String) :
    ((fullPrefix = "" : Bool) || strStartsWith f fullPrefix) = strStartsWith f fullPrefix := by
  by_cases h : fullPrefix = ""
  · subst h
    show (true || _) = _
    simp [strStartsWith, List.isPrefixOf]
  · simp [h]

/-- One step of the remote loop with an empty base prefix, on a key that is
not a directory marker. -/
theorem remoteLoop_cons_step (pattern : String) (mr : Option Nat) (f : String)
    (L : List String) (n : Nat) (hnd : strEndsWith f "/" = false) :
    remoteLoop pattern "" mr (f :: L) n =
      if matchGlob pattern f = true then
        if capReached mr (n + 1) = true then [f]
        else f :: remoteLoop pattern "" mr L (n + 1)
      else remoteLoop pattern "" mr L n := by
  show (if strEndsWith f "/" = true then _ else _) = _
  rw [if_neg (by simp [hnd])]
  show (if matchGlob pattern
      (if strStartsWith f "" = true then strSlice f "".length else f) = true
    then _ else _) = _
  rw [if_pos (show strStartsWith f "" = true by simp [strStartsWith, List.isPrefixOf])]
  rfl

/-- With the cap and counter fixed, the manifest loop and the remote loop
agree key-for-key once the remote side is restricted to the same prefix,
provided the keys carry no directory markers and the match steps agree. -/
theorem manifestLoop_eq_remoteLoop (pattern fullPrefix : String)
    (simple : Option (List Char)) (mr : Option Nat)
    (hsim : ∀ f, manifestIsMatch pattern simple f = matchGlob pattern f) :
    ∀ files n, (∀ f ∈ files, strEndsWith f "/" = false) →
      manifestLoop pattern fullPrefix simple mr files n =
        remoteLoop pattern "" mr
          (files.filter (fun k => strStartsWith k fullPrefix)) n := by
  intro files
  induction files with
  | nil => intro n _; rfl
  | cons f fs ih =>
    intro n hnd
    have hndf : strEndsWith f "/" = false := hnd f (List.mem_cons_self f fs)
    have hnds : ∀ g ∈ fs, strEndsWith g "/" = false :=
      fun g hg => hnd g (List.mem_cons_of_mem f hg)
    show (if (fullPrefix = "" : Bool) || strStartsWith f fullPrefix then _ else _) = _
    rw [prefixTest_eq fullPrefix f]
    by_cases hpre : strStartsWith f fullPrefix = true
    · rw [if_pos hpre]
      have hfil : (f :: fs).filter (fun k => strStartsWith k fullPrefix) =
          f :: fs.filter (fun k => strStartsWith k fullPrefix) := by
        simp [List.filter_cons, hpre]
      rw [hfil, remoteLoop_cons_step pattern mr f _ n hndf]
      rw [show manifestIsMatch pattern simple f = matchGlob pattern f from hsim f]
      by_cases hm : matchGlob pattern f = true
      · rw [if_pos hm, if_pos hm]
        by_cases hcap : capReached mr (n + 1) = true
        · rw [if_pos hcap, if_pos hcap]
        · rw [if_neg hcap, if_neg hcap, ih (n + 1) hnds]
      · rw [if_neg hm, if_neg hm, ih n hnds]
    · rw [if_neg hpre]
      have hfil : (f :: fs).filter (fun k => strStartsWith k fullPrefix) =
          fs.filter (fun k => strStartsWith k fullPrefix) := by
        simp [List.filter_cons, hpre]
      rw [hfil, ih n hnds]

/-! ## Claim C5 — `extractFixedPrefix` boundary behaviour -/

/-- C5, counterexample: contrary to the claim, on a wholly literal pattern
`extractFixedPrefix` does return the full literal path plus a trailing
separator: `extractFixedPrefix "a/b/c.ts" = "a/b/c.ts/"`. -/
theorem c5_counterexample : extractFixedPrefix "a/b/c.ts" = "a/b/c.ts/" := by decide

/-- C5 (amended): `extractFixedPrefix` splits on `/` and accumulates leading
literal segments; `extractFixedPrefix "a/b/*.ts" = "a/b/"`;
`extractFixedPrefix "**/*.ts" = ""`; the result is `""` whenever the first
segment contains a glob metacharacter; and for every wholly literal pattern
(every segment literal — not only when further segments follow) the result
is the full pattern plus a trailing `/`. -/
theorem c5_extractFixedPrefix_spec :
    extractFixedPrefix "a/b/*.ts" = "a/b/" ∧
    extractFixedPrefix "**/*.ts" = "" ∧
    (∀ p : String, (∀ s ∈ splitChar '/' p.data, literalSeg s = true) →
      extractFixedPrefix p = p ++ "/") ∧
    (∀ p : String, ∀ s parts, splitChar '/' p.data = s :: parts →
      literalSeg s = false → extractFixedPrefix p = "") := by
  refine ⟨by decide, by decide, ?_, ?_⟩
  · intro p hlit
    rw [extractFixedPrefix]
    have htw : (splitChar '/' p.data).takeWhile literalSeg = splitChar '/' p.data :=
      List.takeWhile_eq_self_iff.mpr hlit
    simp only [htw]
    rw [if_pos (by simpa [List.length_pos] using splitChar_ne_nil '/' p.data)]
    show (⟨joinChar '/' (splitChar '/' p.data) ++ ['/']⟩ : String) = p ++ "/"
    rw [joinChar_splitChar]
    rfl
  · intro p s parts hsp hs
    rw [extractFixedPrefix]
    simp only [hsp, List.takeWhile_cons, hs]
    rfl

/-- C5 witness: the amended general clauses applied at `"a/b/c.ts"` (wholly
literal) and at `"**/*.ts"` (first segment a glob). -/
theorem c5_witness :
    extractFixedPrefix "a/b/c.ts" = "a/b/c.ts" ++ "/" ∧
    extractFixedPrefix "**/*.ts" = "" :=
  ⟨c5_extractFixedPrefix_spec.2.2.1 "a/b/c.ts" (by decide),
   c5_extractFixedPrefix_spec.2.2.2 "**/*.ts" ['*', '*'] ["*.ts".data] (by decide)
     (by decide)⟩

/-! ## Claim C1 — manifest path returns exactly the matching subset -/

/-- C1, counterexample: for the wholly literal pattern `"a"` the fixed
prefix is `"a/"`, so the sole manifest key `"a"`, which matches the pattern,
is discarded by the prefix pruning and `findFiles` returns nothing. -/
theorem c1_counterexample :
    findFilesManifest "a" "" none ["a"] = [] ∧
    matchGlob "a" "a" = true ∧
    List.filter (fun f => matchGlob "a" f) ["a"] = ["a"] := by decide

/-- C1 (amended): with no base prefix and no cap, the manifest path returns
exactly the keys matching the pattern, in manifest order, provided the
pruning is engaged safely (`pruneSafe`): the extracted fixed prefix is empty,
or the pattern's glob remainder is nonempty and cannot match zero segments.
A wholly literal pattern (and, likewise, a literal block followed only by
`**` segments) violates this and can discard its own matches. -/
theorem c1_manifest_exact (pattern : String) (files : List String)
    (hps : pruneSafe pattern) :
    findFilesManifest pattern "" none files =
      files.filter (fun f => matchGlob pattern f) := by
  unfold findFilesManifest
  simp only [if_pos rfl]
  rw [manifestLoop_none]
  apply List.filter_congr
  intro f _
  rw [show (match simpleSuffix pattern with
      | some s => if '/' ∈ s then none else some s
      | none => none) = computedSimple pattern from rfl]
  rw [manifestIsMatch_eq pattern f]
  cases hm : matchGlob pattern f with
  | false => simp
  | true =>
    rcases matchGlob_imp_startsWith pattern f hps hm with h | h
    · simp [h]
    · simp [h]

/-- C1 witness: the amended theorem applied at pattern `"a/b/*.ts"` over a
three-key manifest. -/
theorem c1_witness :
    pruneSafe "a/b/*.ts" ∧
    findFilesManifest "a/b/*.ts" "" none ["a/b/x.ts", "a/c/y.ts", "a/b/z.md"] =
      ["a/b/x.ts"] :=
  ⟨by decide, by
    rw [c1_manifest_exact "a/b/*.ts" ["a/b/x.ts", "a/c/y.ts", "a/b/z.md"] (by decide)]
    decide⟩

/-! ## Claim C3 — fast path for `**​/S` patterns -/

/-- C3 (confirmed): for a pattern of the exact shape `**​/S` with `S`
nonempty and separator-free, matching only the final segment of a path
against `S` — the manifest fast path — coincides with full-path glob
matching, for every path. -/
theorem c3_fastPath_equiv (S path : String) (_hne : S.data ≠ [])
    (hsep : '/' ∉ S.data) :
    matchGlob ("**/" ++ S) path = matchGlob S (lastSegOf path) :=
  (fastPath_eq_matchGlob S.data path hsep).symm

/-- C3 witness: the fast path agrees with the full matcher at
`S = "*.ts"` on a nested path. -/
theorem c3_witness :
    ("*.ts".data ≠ [] ∧ '/' ∉ "*.ts".data) ∧
    matchGlob ("**/" ++ "*.ts") "a/b/x.ts" = matchGlob "*.ts" (lastSegOf "a/b/x.ts") ∧
    matchGlob ("**/" ++ "*.ts") "a/b/x.ts" = true :=
  ⟨⟨by decide, by decide⟩,
   c3_fastPath_equiv "*.ts" "a/b/x.ts" (by decide) (by decide), by decide⟩

/-! ## Claim C2 — manifest path vs remote-listing path -/

/-- C2, counterexample: with the non-empty base prefix `"base/"` and pattern
`"*.ts"`, the manifest path glob-matches the full key `"base/a.ts"` (no
match), while the remote path matches the stripped, caller-relative path
`"a.ts"` (match): the two lookup paths return different sequences over the
same single-object population. -/
theorem c2_counterexample :
    findFilesManifest "*.ts" "base/" none ["base/a.ts"] = [] ∧
    findFilesRemote "*.ts" "base/" none ["base/a.ts"] = ["base/a.ts"] := by decide

/-- C2 (amended): the manifest path evaluates the glob against the full key
and the remote path against the key with `basePrefix` stripped, so they
agree when the configured base prefix is empty (and the population carries
no directory-marker keys), not for every non-empty base prefix. -/
theorem c2_paths_agree_of_no_basePfx (pattern : String) (mr : Option Nat)
    (files : List String) (hnd : ∀ f ∈ files, strEndsWith f "/" = false) :
    findFilesManifest pattern "" mr files = findFilesRemote pattern "" mr files := by
  unfold findFilesManifest findFilesRemote
  simp only [if_pos rfl]
  exact manifestLoop_eq_remoteLoop pattern (extractFixedPrefix pattern)
    (computedSimple pattern) mr (fun f => manifestIsMatch_eq pattern f) files 0 hnd

/-- C2 witness: both paths agree on a two-key population with an empty base
prefix. -/
theorem c2_witness :
    (∀ f ∈ ["a/x.ts", "b.md"], strEndsWith f "/" = false) ∧
    findFilesManifest "**/*.ts" "" none ["a/x.ts", "b.md"] =
      findFilesRemote "**/*.ts" "" none ["a/x.ts", "b.md"] ∧
    findFilesManifest "**/*.ts" "" none ["a/x.ts", "b.md"] = ["a/x.ts"] :=
  ⟨by decide,
   c2_paths_agree_of_no_basePfx "**/*.ts" none ["a/x.ts", "b.md"] (by decide),
   by decide⟩


/-! ## Content cache (`S3FileCache`, `src/s3-file-cache.ts`)

The LRU index (`lru-cache`) is modelled as a recency-ordered association
list, least-recently-used first, most-recently-used last; `currentSize` is
the cache's own byte bookkeeping (`this.currentSize`).  Filesystem deletion
may fail, which the source catches in `removeFile` (lines 85-92): the
outcome of `fs.unlink` is modelled by the oracle `unlinkOk`.  Following the
spec's concurrency model (single-threaded, no suspension between the index
update and the size update), the `dispose` callback is modelled as running
synchronously with the eviction. -/

def MAX_CACHE_SIZE_BYTES : Nat := 2 * 1024 * 1024 * 1024

def MAX_CACHE_ENTRIES : Nat := 10000

structure CacheState where
  lru : List (String × Nat)
  currentSize : Int

/-- `sizeCalculation: (entry) => Math.max(1, entry.size || 0)`. -/
def calcEntry (sz : Nat) : Nat := max 1 sz

/-- Sum of the raw entry sizes resident in the index. -/
def sumSizes (es : List (String × Nat)) : Int := (es.map (fun e => (e.2 : Int))).sum

/-- The size the LRU accounts for (`calculatedSize`). -/
def calcTotal (es : List (String × Nat)) : Nat := (es.map (fun e => calcEntry e.2)).sum

/-- Remove the (first) entry stored under a key from the index. -/
def eraseEntry (key : String) : List (String × Nat) → List (String × Nat)
  | [] => []
  | e :: rest => if e.1 = key then rest else e :: eraseEntry key rest

/-- `removeFile` (lines 85-92): unlink the backing file and, only when that
succeeds, decrement the resident size; a failed deletion is logged and the
decrement is skipped. -/
def removeFile (unlinkOk : String → Bool) (key : String) (size : Nat) (cur : Int) : Int :=
  if unlinkOk key then cur - (size : Int) else cur

/-- lru-cache eviction on insert: evict least-recently-used entries while the
entry bound or the calculated-size bound would be exceeded, running the
dispose callback (`removeFile`) for each eviction. -/
def evictLoop (unlinkOk : String → Bool) (newCalc : Nat) :
    List (String × Nat) → Int → List (String × Nat) × Int
  | [], cur => ([], cur)
  | (k, sz) :: rest, cur =>
    if MAX_CACHE_ENTRIES ≤ ((k, sz) :: rest).length ∨
        MAX_CACHE_SIZE_BYTES < calcTotal ((k, sz) :: rest) + newCalc then
      evictLoop unlinkOk newCalc rest (removeFile unlinkOk k sz cur)
    else ((k, sz) :: rest, cur)

/-- `cacheFile` (lines 94-138).  A hit refreshes recency and returns the
cached path.  A miss downloads (`download = none` models a failed download,
which throws without touching the cache), writes the local file, inserts the
entry — possibly evicting — and adds the actual size to `currentSize`.  An
entry larger than the byte capacity is rejected by lru-cache (disposing the
fresh value) while `currentSize` is still incremented afterwards.  The
returned local path is identified by the key. -/
def cacheFile (unlinkOk : String → Bool) (key : String) (download : Option Nat)
    (st : CacheState) : CacheState × Option String :=
  match st.lru.find? (fun e => e.1 = key) with
  | some e => ({ st with lru := eraseEntry key st.lru ++ [e] }, some key)
  | none =>
    match download with
    | none => (st, none)
    | some size =>
      if MAX_CACHE_SIZE_BYTES < calcEntry size then
        ({ st with
            currentSize := removeFile unlinkOk key size st.currentSize + (size : Int) },
          some key)
      else
        let p := evictLoop unlinkOk (calcEntry size) st.lru st.currentSize
        ({ lru := p.1 ++ [(key, size)], currentSize := p.2 + (size : Int) }, some key)

/-- `getCachedPath` (lines 174-182): lookup without fetching; touches
recency when present. -/
def getCachedPath (key : String) (st : CacheState) : CacheState × Option String :=
  match st.lru.find? (fun e => e.1 = key) with
  | some e => ({ st with lru := eraseEntry key st.lru ++ [e] }, some key)
  | none => (st, none)

/-- `clear` (lines 202-214): drop all entries and reset the size counter. -/
def clear (_st : CacheState) : CacheState :=
  { lru := [], currentSize := 0 }

/-- `getStats().sizeBytes` (line 194). -/
def statsSizeBytes (st : CacheState) : Int := st.currentSize

/-- The C4 invariant: the resident sizes sum to the reported size, which
stays within the byte capacity. -/
def cacheInv (st : CacheState) : Prop :=
  sumSizes st.lru = st.currentSize ∧ st.currentSize ≤ (MAX_CACHE_SIZE_BYTES : Int)

instance (st : CacheState) : Decidable (cacheInv st) := by
  unfold cacheInv; infer_instance

/-! ### Cache lemmas -/

theorem sumSizes_cons (e : String × Nat) (es : List (String × Nat)) :
    sumSizes (e :: es) = (e.2 : Int) + sumSizes es := by
  simp [sumSizes]

theorem sumSizes_append (a b : List (String × Nat)) :
    sumSizes (a ++ b) = sumSizes a + sumSizes b := by
  simp [sumSizes]

/-- Removing the found entry and re-appending it preserves the size sum. -/
theorem sumSizes_touch (key : String) :
    ∀ es e, es.find? (fun x => x.1 = key) = some e →
      sumSizes (eraseEntry key es ++ [e]) = sumSizes es := by
  intro es
  induction es with
  | nil => intro e h; simp [List.find?] at h
  | cons e0 rest ih =>
    intro e h
    by_cases h0 : e0.1 = key
    · have hfind : (e0 :: rest).find? (fun x => x.1 = key) = some e0 := by
        simp [List.find?_cons, h0]
      rw [hfind] at h
      injection h with h'
      have herase : eraseEntry key (e0 :: rest) = rest := by
        show (if e0.1 = key then rest else e0 :: eraseEntry key rest) = rest
        rw [if_pos h0]
      rw [herase, ← h', sumSizes_append, sumSizes_cons, sumSizes_cons]
      simp [sumSizes]
      ring
    · have hfind : (e0 :: rest).find? (fun x => x.1 = key) =
          rest.find? (fun x => x.1 = key) := by
        simp [List.find?_cons, h0]
      rw [hfind] at h
      have herase : eraseEntry key (e0 :: rest) = e0 :: eraseEntry key rest := by
        show (if e0.1 = key then rest else e0 :: eraseEntry key rest) = _
        rw [if_neg h0]
      rw [herase, List.cons_append, sumSizes_cons, ih e h, sumSizes_cons]

theorem evictLoop_diff (newCalc : Nat) :
    ∀ es cur, (evictLoop (fun _ => true) newCalc es cur).2 -
        sumSizes (evictLoop (fun _ => true) newCalc es cur).1 = cur - sumSizes es := by
  intro es
  induction es with
  | nil => intro cur; simp [evictLoop, sumSizes]
  | cons e rest ih =>
    intro cur
    obtain ⟨k, sz⟩ := e
    by_cases hc : MAX_CACHE_ENTRIES ≤ ((k, sz) :: rest).length ∨
        MAX_CACHE_SIZE_BYTES < calcTotal ((k, sz) :: rest) + newCalc
    · rw [show evictLoop (fun _ => true) newCalc ((k, sz) :: rest) cur =
          evictLoop (fun _ => true) newCalc rest
            (removeFile (fun _ => true) k sz cur) by
        simp only [evictLoop, if_pos hc]]
      rw [ih (removeFile (fun _ => true) k sz cur)]
      simp only [removeFile, sumSizes_cons]
      simp only [if_true]
      ring
    · rw [show evictLoop (fun _ => true) newCalc ((k, sz) :: rest) cur =
          ((k, sz) :: rest, cur) by simp only [evictLoop, if_neg hc]]

theorem evictLoop_fit (unlinkOk : String → Bool) (newCalc : Nat)
    (hnc : newCalc ≤ MAX_CACHE_SIZE_BYTES) :
    ∀ es cur, calcTotal (evictLoop unlinkOk newCalc es cur).1 + newCalc ≤
      MAX_CACHE_SIZE_BYTES := by
  intro es
  induction es with
  | nil => intro cur; simpa [evictLoop, calcTotal] using hnc
  | cons e rest ih =>
    intro cur
    obtain ⟨k, sz⟩ := e
    by_cases hc : MAX_CACHE_ENTRIES ≤ ((k, sz) :: rest).length ∨
        MAX_CACHE_SIZE_BYTES < calcTotal ((k, sz) :: rest) + newCalc
    · rw [show evictLoop unlinkOk newCalc ((k, sz) :: rest) cur =
          evictLoop unlinkOk newCalc rest (removeFile unlinkOk k sz cur) by
        simp only [evictLoop, if_pos hc]]
      exact ih (removeFile unlinkOk k sz cur)
    · rw [show evictLoop unlinkOk newCalc ((k, sz) :: rest) cur =
          ((k, sz) :: rest, cur) by simp only [evictLoop, if_neg hc]]
      push_neg at hc
      exact hc.2

theorem sumSizes_le_calcTotal : ∀ es, sumSizes es ≤ (calcTotal es : Int) := by
  intro es
  induction es with
  | nil => simp [sumSizes, calcTotal]
  | cons e rest ih =>
    simp only [sumSizes, calcTotal, List.map_cons, List.sum_cons] at ih ⊢
    have h2 : (e.2 : Int) ≤ (calcEntry e.2 : Int) := by
      exact_mod_cast Nat.le_max_right 1 e.2
    push_cast at ih ⊢
    omega

theorem cacheFile_hit (unlinkOk : String → Bool) (key : String) (dl : Option Nat)
    (st : CacheState) (e : String × Nat)
    (hfind : st.lru.find? (fun x => x.1 = key) = some e) :
    (cacheFile unlinkOk key dl st).1 = { st with lru := eraseEntry key st.lru ++ [e] } := by
  simp only [cacheFile, hfind]

theorem cacheFile_miss_fail (unlinkOk : String → Bool) (key : String)
    (st : CacheState) (hfind : st.lru.find? (fun x => x.1 = key) = none) :
    (cacheFile unlinkOk key none st).1 = st := by
  simp only [cacheFile, hfind]

theorem cacheFile_oversize (unlinkOk : String → Bool) (key : String) (size : Nat)
    (st : CacheState) (hfind : st.lru.find? (fun x => x.1 = key) = none)
    (hbig : MAX_CACHE_SIZE_BYTES < calcEntry size) :
    (cacheFile unlinkOk key (some size) st).1 =
      { st with currentSize := removeFile unlinkOk key size st.currentSize + (size : Int) } := by
  simp only [cacheFile, hfind, if_pos hbig]

theorem cacheFile_insert (unlinkOk : String → Bool) (key : String) (size : Nat)
    (st : CacheState) (hfind : st.lru.find? (fun x => x.1 = key) = none)
    (hbig : ¬ MAX_CACHE_SIZE_BYTES < calcEntry size) :
    (cacheFile unlinkOk key (some size) st).1 =
      { lru := (evictLoop unlinkOk (calcEntry size) st.lru st.currentSize).1 ++ [(key, size)],
        currentSize := (evictLoop unlinkOk (calcEntry size) st.lru st.currentSize).2 + (size : Int) } := by
  simp only [cacheFile, hfind, if_neg hbig]

/-! ## Claim C4 — eviction bookkeeping invariant -/

/-- C4, counterexample: when the eviction's `fs.unlink` fails, the entry
leaves the index but `currentSize` keeps its bytes.  Caching a capacity-sized
object `A`, then `B` of one byte with `A`'s backing-file deletion failing,
ends with one resident entry of size 1 while `stats().sizeBytes` reports
`2147483649`, which also exceeds the 2 GiB capacity: the bookkeeping has
diverged from the index. -/
theorem c4_counterexample :
    statsSizeBytes
        (cacheFile (fun k => k != "A") "B" (some 1)
          (cacheFile (fun k => k != "A") "A" (some 2147483648)
            { lru := [], currentSize := 0 }).1).1 = 2147483649 ∧
    sumSizes
        (cacheFile (fun k => k != "A") "B" (some 1)
          (cacheFile (fun k => k != "A") "A" (some 2147483648)
            { lru := [], currentSize := 0 }).1).1.lru = 1 ∧
    ¬ cacheInv
        (cacheFile (fun k => k != "A") "B" (some 1)
          (cacheFile (fun k => k != "A") "A" (some 2147483648)
            { lru := [], currentSize := 0 }).1).1 := by
  decide

/-- C4 (amended): the resident-size bookkeeping equals the sum of resident
entry sizes and stays within the 2 GiB capacity after every completed
`cacheFile`, `getCachedPath` and `clear` — provided every eviction's
backing-file deletion succeeds.  When a deletion fails, the source removes
the index entry but skips the size decrement, so the reported size can
diverge from the resident set (and exceed the capacity). -/
theorem c4_inv_preserved_of_unlink_ok :
    (∀ key download st, cacheInv st →
        cacheInv (cacheFile (fun _ => true) key download st).1) ∧
    (∀ key st, cacheInv st → cacheInv (getCachedPath key st).1) ∧
    (∀ st, cacheInv (clear st)) := by
  refine ⟨?_, ?_, ?_⟩
  · intro key download st hinv
    obtain ⟨hsum, hle⟩ := hinv
    cases hfind : st.lru.find? (fun x => x.1 = key) with
    | some e =>
      rw [cacheFile_hit (fun _ => true) key download st e hfind]
      exact ⟨by
        show sumSizes (eraseEntry key st.lru ++ [e]) = st.currentSize
        rw [sumSizes_touch key st.lru e hfind]
        exact hsum, hle⟩
    | none =>
      cases download with
      | none =>
        rw [cacheFile_miss_fail (fun _ => true) key st hfind]
        exact ⟨hsum, hle⟩
      | some size =>
        by_cases hbig : MAX_CACHE_SIZE_BYTES < calcEntry size
        · rw [cacheFile_oversize (fun _ => true) key size st hfind hbig]
          refine ⟨?_, ?_⟩
          · show sumSizes st.lru =
              removeFile (fun _ => true) key size st.currentSize + (size : Int)
            simp only [removeFile, if_true]
            omega
          · show removeFile (fun _ => true) key size st.currentSize + (size : Int) ≤ _
            simp only [removeFile, if_true]
            omega
        · rw [cacheFile_insert (fun _ => true) key size st hfind hbig]
          have hdiff := evictLoop_diff (calcEntry size) st.lru st.currentSize
          rw [hsum] at hdiff
          have hfit := evictLoop_fit (fun _ => true) (calcEntry size)
            (Nat.le_of_not_lt hbig) st.lru st.currentSize
          have hsle := sumSizes_le_calcTotal
            (evictLoop (fun _ => true) (calcEntry size) st.lru st.currentSize).1
          have hsz : (size : Int) ≤ (calcEntry size : Int) := by
            exact_mod_cast Nat.le_max_right 1 size
          constructor
          · show sumSizes (_ ++ [(key, size)]) =
              (evictLoop (fun _ => true) (calcEntry size) st.lru st.currentSize).2 +
                (size : Int)
            rw [sumSizes_append, sumSizes_cons]
            have h0 : sumSizes ([] : List (String × Nat)) = 0 := rfl
            rw [h0]
            omega
          · show (evictLoop (fun _ => true) (calcEntry size) st.lru st.currentSize).2 +
              (size : Int) ≤ _
            have hcast : ((calcTotal (evictLoop (fun _ => true) (calcEntry size)
                st.lru st.currentSize).1 : Int) + (calcEntry size : Int)) ≤
                (MAX_CACHE_SIZE_BYTES : Int) := by
              exact_mod_cast hfit
            omega
  · intro key st hinv
    obtain ⟨hsum, hle⟩ := hinv
    unfold getCachedPath
    cases hfind : st.lru.find? (fun x => x.1 = key) with
    | some e =>
      exact ⟨by
        show sumSizes (eraseEntry key st.lru ++ [e]) = st.currentSize
        rw [sumSizes_touch key st.lru e hfind]
        exact hsum, hle⟩
    | none => exact ⟨hsum, hle⟩
  · intro st
    exact ⟨by simp [clear, sumSizes], by simp [clear, MAX_CACHE_SIZE_BYTES]⟩

/-- C4 witness: the amended invariant applied after caching a small object
into an empty cache with all deletions succeeding. -/
theorem c4_witness :
    cacheInv { lru := [], currentSize := 0 } ∧
    cacheInv (cacheFile (fun _ => true) "A" (some 5)
      { lru := [], currentSize := 0 }).1 :=
  ⟨by decide,
   c4_inv_preserved_of_unlink_ok.1 "A" (some 5)
     { lru := [], currentSize := 0 } (by decide)⟩

/-! ## Batch caching (`S3FileCache.cacheFiles`, lines 140-172)

Downloads inside one concurrency window run concurrently; their only effect
on the returned map is the per-identifier outcome, modelled by the oracle
`ok` (whether `cacheFile` resolves for that identifier).  The result is the
insertion-ordered `results` map as an association list.  `abortedAfter i`
models `options.signal.aborted` as observed after window `i`.  The fuel is
the list length; a positive `maxConcurrent` (the source's callers use 5-10,
default 10) never exhausts it. -/

def localPathOf (uri : String) : String := uri

/-- One concurrency window: `Promise.allSettled` outcomes folded into the
results map — fulfilled entries recorded, rejected ones only logged. -/
def batchResults (ok : String → Bool) (batch : List String) : List (String × String) :=
  batch.filterMap (fun u => if ok u then some (u, localPathOf u) else none)

def cacheFilesGo (ok : String → Bool) (mc : Nat) (abortedAfter : Nat → Bool) :
    Nat → Nat → List String → List (String × String)
  | 0, _, _ => []
  | _ + 1, _, [] => []
  | fuel + 1, i, us =>
    batchResults ok (us.take mc) ++
      (if abortedAfter i then []
       else cacheFilesGo ok mc abortedAfter fuel (i + 1) (us.drop mc))

/-- `cacheFiles`: process identifiers in windows of `maxConcurrent`,
checking the cancellation signal after each window. -/
def cacheFiles (ok : String → Bool) (mc : Nat) (abortedAfter : Nat → Bool)
    (uris : List String) : List (String × String) :=
  cacheFilesGo ok mc abortedAfter uris.length 0 uris

theorem batchResults_eq_filter (ok : String → Bool) (batch : List String) :
    batchResults ok batch = (batch.filter ok).map (fun u => (u, localPathOf u)) := by
  induction batch with
  | nil => rfl
  | cons u us ih =>
    simp only [batchResults, List.filterMap_cons, List.filter_cons] at ih ⊢
    by_cases hu : ok u = true
    · simp [hu, ih]
    · simp only [Bool.not_eq_true] at hu
      simp [hu, ih]

theorem cacheFilesGo_no_abort (ok : String → Bool) (mc : Nat) (hmc : 0 < mc) :
    ∀ fuel i us, us.length ≤ fuel →
      cacheFilesGo ok mc (fun _ => false) fuel i us =
        (us.filter ok).map (fun u => (u, localPathOf u)) := by
  intro fuel
  induction fuel with
  | zero =>
    intro i us hlen
    have : us = [] := List.eq_nil_of_length_eq_zero (Nat.le_zero.mp hlen)
    subst this
    rfl
  | succ fuel ih =>
    intro i us hlen
    cases us with
    | nil => rfl
    | cons u tail =>
      show batchResults ok ((u :: tail).take mc) ++
          (if False then []
           else cacheFilesGo ok mc (fun _ => false) fuel (i + 1) ((u :: tail).drop mc)) = _
      rw [if_neg (by simp)]
      have hdlen : ((u :: tail).drop mc).length ≤ fuel := by
        rw [List.length_drop]
        have h1 : (u :: tail).length ≤ fuel + 1 := hlen
        have h2 : (u :: tail).length = tail.length + 1 := by simp
        omega
      rw [ih (i + 1) ((u :: tail).drop mc) hdlen, batchResults_eq_filter]
      rw [← List.map_append, ← List.filter_append, List.take_append_drop]

/-! ## Claim C6 — batch failure isolation and reporting -/

/-- C6, counterexample: a batch of 20 identifiers at concurrency 5 with the
single poisoned identifier `"u13"` yields 19 successes and no abort — but
the returned map reports only the 19 successes: the failed identifier has no
per-identifier failure record in the result (it is only logged). -/
theorem c6_counterexample :
    (cacheFiles (fun u => u != "u13") 5 (fun _ => false)
        ["u01", "u02", "u03", "u04", "u05", "u06", "u07", "u08", "u09", "u10",
         "u11", "u12", "u13", "u14", "u15", "u16", "u17", "u18", "u19", "u20"]).length
      = 19 ∧
    "u13" ∉ (cacheFiles (fun u => u != "u13") 5 (fun _ => false)
        ["u01", "u02", "u03", "u04", "u05", "u06", "u07", "u08", "u09", "u10",
         "u11", "u12", "u13", "u14", "u15", "u16", "u17", "u18", "u19", "u20"]).map
          Prod.fst := by
  decide

/-- C6 (amended): absent cancellation and with a positive concurrency
window, a download failure does not abort the batch — every other identifier
is still attempted, and the result map is exactly the successful identifiers
with their local paths, in order.  Failed identifiers are only logged: the
result map carries no per-identifier failure entries. -/
theorem c6_batch_isolation (ok : String → Bool) (mc : Nat) (uris : List String)
    (hmc : 0 < mc) :
    cacheFiles ok mc (fun _ => false) uris =
      (uris.filter ok).map (fun u => (u, localPathOf u)) :=
  cacheFilesGo_no_abort ok mc hmc uris.length 0 uris (Nat.le_refl _)

/-- C6 witness: the amended theorem applied to the 20-identifier batch with
one poisoned identifier at concurrency 5. -/
theorem c6_witness :
    0 < 5 ∧
    cacheFiles (fun u => u != "u13") 5 (fun _ => false)
        ["u01", "u02", "u03", "u04", "u05", "u06", "u07", "u08", "u09", "u10",
         "u11", "u12", "u13", "u14", "u15", "u16", "u17", "u18", "u19", "u20"] =
      ((["u01", "u02", "u03", "u04", "u05", "u06", "u07", "u08", "u09", "u10",
         "u11", "u12", "u13", "u14", "u15", "u16", "u17", "u18", "u19", "u20"].filter
          (fun u => u != "u13")).map (fun u => (u, localPathOf u))) :=
  ⟨by decide,
   c6_batch_isolation (fun u => u != "u13") 5
     ["u01", "u02", "u03", "u04", "u05", "u06", "u07", "u08", "u09", "u10",
      "u11", "u12", "u13", "u14", "u15", "u16", "u17", "u18", "u19", "u20"]
     (by decide)⟩

/-! ## In-process grep (`grepFiles`, `src/s3-file-cache.ts` lines 226-303)

The candidate files are the output of `findFiles(globFilter || '**/*', 1000)`
(abstracted as the input list); the regex test built from the caller's
pattern and case flag is abstracted as the predicate `test`; `corpus uri`
is the file's content, or `none` when `stat`/`readFile` throws or the entry
is a directory (such files are skipped).  Lines are the content split on
`'\n'`. -/

def GREP_MAX_TOTAL_RESULTS : Nat := 100

def GREP_MAX_RESULTS_PER_FILE : Nat := 10

def GREP_MAX_COLUMN_LENGTH : Nat := 200

/-- Column truncation: lines longer than 200 characters are cut and get an
ellipsis. -/
def truncLine (line : String) : String :=
  if GREP_MAX_COLUMN_LENGTH < line.length then ⟨line.data.take GREP_MAX_COLUMN_LENGTH⟩ ++ "..."
  else line

/-- The inner per-file line scan: collect `uri:line: text` entries, stopping
at the per-file cap (10) or the total cap (100); `tm` is the running total
before this file's remaining lines. -/
def grepFileLines (test : String → Bool) (uri : String) :
    List String → Nat → Nat → Nat → List String
  | [], _, _, _ => []
  | line :: rest, i, fm, tm =>
    if test line then
      (uri ++ ":" ++ Nat.repr (i + 1) ++ ": " ++ truncLine line) ::
        (if GREP_MAX_RESULTS_PER_FILE ≤ fm + 1 ∨ GREP_MAX_TOTAL_RESULTS ≤ tm + 1 then []
         else grepFileLines test uri rest (i + 1) (fm + 1) (tm + 1))
    else grepFileLines test uri rest (i + 1) fm tm

/-- The outer file loop: stop once the total cap is reached, skip unreadable
files, and accumulate the per-file matches. -/
def grepFilesGo (test : String → Bool) (corpus : String → Option String) :
    List String → Nat → List String
  | [], _ => []
  | uri :: rest, tm =>
    if GREP_MAX_TOTAL_RESULTS ≤ tm then []
    else
      match corpus uri with
      | none => grepFilesGo test corpus rest tm
      | some content =>
        let hits := grepFileLines test uri
          ((splitChar '\n' content.data).map (fun l => (⟨l⟩ : String))) 0 0 tm
        hits ++ grepFilesGo test corpus rest (tm + hits.length)

/-- `pathFilter` pre-filtering: keep files whose identifier contains the
filter as a substring (`uri.path.includes(pathFilter)`). -/
def grepFilter (pathFilter : Option String) (files : List String) : List String :=
  match pathFilter with
  | some pf => files.filter (fun u => decide (pf.data <:+: u.data))
  | none => files

/-- The matches collected before the truncation post-processing. -/
def grepCollect (test : String → Bool) (corpus : String → Option String)
    (pathFilter : Option String) (files : List String) : List String :=
  grepFilesGo test corpus (grepFilter pathFilter files) 0

def grepTrailer1 : String := "\nResults truncated: showing first 100 matches."

def grepTrailer2 : String :=
  "To see more results:\n  • Use the 'path' parameter to search in a specific directory\n  • Use the 'glob' parameter to filter by file type\n  • Make your search pattern more specific"

/-- `grepFiles`: collect matches, then append the two-entry truncation
trailer when the total cap was hit. -/
def grepFiles (test : String → Bool) (corpus : String → Option String)
    (pathFilter : Option String) (files : List String) : List String :=
  let results := grepCollect test corpus pathFilter files
  if GREP_MAX_TOTAL_RESULTS ≤ results.length then results ++ [grepTrailer1, grepTrailer2]
  else results

theorem grepFileLines_le (test : String → Bool) (uri : String) :
    ∀ lines i fm tm, tm < GREP_MAX_TOTAL_RESULTS →
      (grepFileLines test uri lines i fm tm).length ≤ GREP_MAX_TOTAL_RESULTS - tm := by
  intro lines
  induction lines with
  | nil => intro i fm tm _; simp [grepFileLines]
  | cons line rest ih =>
    intro i fm tm htm
    simp only [grepFileLines]
    by_cases ht : test line = true
    · rw [if_pos ht]
      by_cases hbrk : GREP_MAX_RESULTS_PER_FILE ≤ fm + 1 ∨ GREP_MAX_TOTAL_RESULTS ≤ tm + 1
      · rw [if_pos hbrk]
        simp only [List.length_cons, List.length_nil]
        omega
      · rw [if_neg hbrk]
        push_neg at hbrk
        have := ih (i + 1) (fm + 1) (tm + 1) hbrk.2
        simp only [List.length_cons]
        omega
    · rw [if_neg ht]
      exact ih (i + 1) fm tm htm

theorem grepFilesGo_le (test : String → Bool) (corpus : String → Option String) :
    ∀ files tm, (grepFilesGo test corpus files tm).length ≤
      GREP_MAX_TOTAL_RESULTS - tm := by
  intro files
  induction files with
  | nil => intro tm; simp [grepFilesGo]
  | cons uri rest ih =>
    intro tm
    simp only [grepFilesGo]
    by_cases hcap : GREP_MAX_TOTAL_RESULTS ≤ tm
    · rw [if_pos hcap]
      simp
    · rw [if_neg hcap]
      cases hcor : corpus uri with
      | none => exact ih tm
      | some content =>
        have hhit := grepFileLines_le test uri
          ((splitChar '\n' content.data).map (fun l => (⟨l⟩ : String))) 0 0 tm
          (Nat.lt_of_not_le hcap)
        have hrest := ih (tm + (grepFileLines test uri
          ((splitChar '\n' content.data).map (fun l => (⟨l⟩ : String))) 0 0 tm).length)
        simp only [List.length_append]
        omega

/-! ## Claim C7 — grep result cap and truncation trailer -/

/-- C7, counterexample: a search with 150 true matching lines, all in one
file, is capped by the per-file limit of 10: the result has 10 entries, not
100 matches plus a trailer — so a true match count above 100 does not by
itself produce the 100-result truncated output. -/
theorem c7_counterexample :
    (((splitChar '\n' (String.intercalate "\n" (List.replicate 150 "x")).data).map
        (fun l => (⟨l⟩ : String))).filter (fun l => l == "x")).length = 150 ∧
    (grepFiles (fun l => l == "x")
        (fun u => if u = "s3://b/f"
          then some (String.intercalate "\n" (List.replicate 150 "x")) else none)
        none ["s3://b/f"]).length = 10 := by
  set_option maxRecDepth 40000 in decide

/-- C7 (amended): the collected matches (after the per-file cap of 10 and
the total cap of 100) never exceed 100; and the grep result is exactly the
collected matches, followed by the two-entry truncation trailer precisely
when the collected count reaches 100. -/
theorem c7_truncation (test : String → Bool) (corpus : String → Option String)
    (pathFilter : Option String) (files : List String) :
    (grepCollect test corpus pathFilter files).length ≤ GREP_MAX_TOTAL_RESULTS ∧
    grepFiles test corpus pathFilter files =
      (if (grepCollect test corpus pathFilter files).length = GREP_MAX_TOTAL_RESULTS
       then grepCollect test corpus pathFilter files ++ [grepTrailer1, grepTrailer2]
       else grepCollect test corpus pathFilter files) := by
  have hle : (grepCollect test corpus pathFilter files).length ≤ GREP_MAX_TOTAL_RESULTS := by
    have := grepFilesGo_le test corpus (grepFilter pathFilter files) 0
    simpa [grepCollect] using this
  refine ⟨hle, ?_⟩
  unfold grepFiles
  by_cases heq : (grepCollect test corpus pathFilter files).length = GREP_MAX_TOTAL_RESULTS
  · rw [if_pos heq, if_pos (by omega)]
  · rw [if_neg heq, if_neg (by omega)]

/-! ## Directory index (`DirectorySchema`, `src/server.ts` lines 424-463)

`buildFromManifest` walks every key's path segments and inserts one
parent-path → child-name edge per segment into `Map<string, Set<string>>`;
the map-of-sets is modelled as the list of edges, with the set semantics
recovered at lookup time by deduplication.  `listDirectory` normalizes the
requested path, collects the children of the normalized path, deduplicates
and sorts them (JS `Array.sort()` compares strings lexicographically by
their character sequences). -/

/-- `key.split('/').filter(Boolean)`. -/
def keyParts (key : String) : List (List Char) :=
  (splitChar '/' key.data).filter (fun s => !s.isEmpty)

/-- `parts.slice(0, i).join('/') + (i > 0 ? '/' : '')`. -/
def dirPathAt (parts : List (List Char)) (i : Nat) : List Char :=
  joinChar '/' (parts.take i) ++ (if 0 < i then ['/'] else [])

/-- All parent-path → child-name edges inserted by `buildFromManifest`. -/
def dirEdges (files : List String) : List (List Char × List Char) :=
  files.flatMap (fun key =>
    let parts := keyParts key
    (List.range parts.length).map (fun i =>
      (dirPathAt parts i,
       if i = parts.length - 1 then parts.getD i [] else parts.getD i [] ++ ['/'])))

/-- Step 1 of the `listDirectory` path normalization (line 453): ensure a
trailing `/`. -/
def normalizedOf (path : String) : String :=
  if strEndsWith path "/" then path else path ++ "/"

/-- Step 2 (line 454): strip a leading `/`. -/
def cleanOf (path : String) : String :=
  if strStartsWith (normalizedOf path) "/" then strSlice (normalizedOf path) 1
  else normalizedOf path

/-- Step 3 (line 455): a bare `/` looks up the root key. -/
def lookupPathOf (path : String) : String :=
  if cleanOf path = "/" then "" else cleanOf path

/-- `DirectorySchema.listDirectory`: the deduplicated, sorted children of
the normalized path (empty when the path has no entries). -/
def schemaListDir (files : List String) (path : String) : List String :=
  let entries := ((dirEdges files).filter
    (fun e => e.1 = (lookupPathOf path).data)).map Prod.snd
  if entries.isEmpty then []
  else (List.insertionSort (fun a b : List Char => a ≤ b) entries.dedup).map
    (fun l => (⟨l⟩ : String))

/-- `S3FileSystem.listDirectory` (lines 599-606): `null` when no manifest
(hence no `DirectorySchema`) is loaded, else the schema lookup. -/
def listDirectoryFS (manifest : Option (List String)) (path : String) :
    Option (List String) :=
  manifest.map (fun files => schemaListDir files path)

/-! ## Claim C8 — directory listing semantics -/

/-- C8 (confirmed): `listDirectory` returns `null` with no manifest loaded
and the deduplicated, lexicographically sorted immediate children (with
subdirectories suffixed by `/`, and the empty sequence for unknown paths)
otherwise; on the manifest `["a/b/x.txt", "a/b/y.json", "a/c/z.txt"]`,
listing `"a/"` gives `["b/", "c/"]` and `"a/b/"` gives
`["x.txt", "y.json"]`. -/
theorem c8_listDirectory :
    (∀ path, listDirectoryFS none path = none) ∧
    listDirectoryFS (some ["a/b/x.txt", "a/b/y.json", "a/c/z.txt"]) "a/" =
      some ["b/", "c/"] ∧
    listDirectoryFS (some ["a/b/x.txt", "a/b/y.json", "a/c/z.txt"]) "a/b/" =
      some ["x.txt", "y.json"] ∧
    listDirectoryFS (some ["a/b/x.txt", "a/b/y.json", "a/c/z.txt"]) "nope/" =
      some [] ∧
    (∀ files path,
      (schemaListDir files path).Sorted (fun a b => a.data ≤ b.data) ∧
      (schemaListDir files path).Nodup) := by
  refine ⟨fun path => rfl, by decide, by decide, by decide, ?_⟩
  intro files path
  unfold schemaListDir
  by_cases hemp : (((dirEdges files).filter
      (fun e => e.1 = (lookupPathOf path).data)).map Prod.snd).isEmpty = true
  · rw [if_pos hemp]
    exact ⟨List.sorted_nil, List.nodup_nil⟩
  · rw [if_neg hemp]
    constructor
    · rw [List.Sorted, List.pairwise_map]
      exact List.sorted_insertionSort (fun a b : List Char => a ≤ b) _
    · apply List.Nodup.map
      · intro a b hab
        exact congrArg String.data hab
      · exact ((List.perm_insertionSort (fun a b : List Char => a ≤ b) _).nodup_iff).mpr
          (List.nodup_dedup _)

/-! ## Glob tool handler (`src/tools/glob.ts` lines 42-66, `src/server.ts`
lines 272-315)

`filesystem.findFiles` takes the manifest path when a manifest is loaded and
the remote-listing path otherwise; the handler fetches at most `limit`
files, then applies `offset`, then re-applies `limit`.  A JS `limit` or
`offset` of `0` is falsy and disables the corresponding step. -/

def findFilesFS (pattern basePfx : String) (mr : Option Nat)
    (manifest : Option (List String)) (population : List String) : List String :=
  match manifest with
  | some files => findFilesManifest pattern basePfx mr files
  | none => findFilesRemote pattern basePfx mr population

def handleGlob (filePattern basePfx : String) (limit offset : Option Nat)
    (manifest : Option (List String)) (population : List String) : List String :=
  let found := findFilesFS filePattern basePfx limit manifest population
  let afterOffset :=
    match offset with
    | some o => if 0 < o then found.drop o else found
    | none => found
  match limit with
  | some l => if 0 < l ∧ l < afterOffset.length then afterOffset.take l else afterOffset
  | none => afterOffset

theorem manifestLoop_length_le (pattern fullPrefix : String)
    (simple : Option (List Char)) (m : Nat) :
    ∀ files n, n < m →
      (manifestLoop pattern fullPrefix simple (some m) files n).length ≤ m - n := by
  intro files
  induction files with
  | nil => intro n _; simp [manifestLoop]
  | cons f fs ih =>
    intro n hn
    simp only [manifestLoop]
    by_cases hpre : ((fullPrefix = "" : Bool) || strStartsWith f fullPrefix) = true
    · rw [if_pos hpre]
      by_cases hm : manifestIsMatch pattern simple f = true
      · rw [if_pos hm]
        by_cases hcap : capReached (some m) (n + 1) = true
        · rw [if_pos hcap]
          simp only [List.length_cons, List.length_nil]
          omega
        · rw [if_neg hcap]
          simp only [capReached, Bool.and_eq_true, decide_eq_true_eq] at hcap
          have hn1 : n + 1 < m := by omega
          have := ih (n + 1) hn1
          simp only [List.length_cons]
          omega
      · rw [if_neg hm]
        exact ih n hn
    · rw [if_neg hpre]
      exact ih n hn

theorem remoteLoop_length_le (pattern basePfx : String) (m : Nat) :
    ∀ keys n, n < m →
      (remoteLoop pattern basePfx (some m) keys n).length ≤ m - n := by
  intro keys
  induction keys with
  | nil => intro n _; simp [remoteLoop]
  | cons k ks ih =>
    intro n hn
    simp only [remoteLoop]
    by_cases hdir : strEndsWith k "/" = true
    · rw [if_pos hdir]
      exact ih n hn
    · rw [if_neg hdir]
      by_cases hm : matchGlob pattern
          (if strStartsWith k basePfx = true then strSlice k basePfx.length else k) = true
      · rw [if_pos hm]
        by_cases hcap : capReached (some m) (n + 1) = true
        · rw [if_pos hcap]
          simp only [List.length_cons, List.length_nil]
          omega
        · rw [if_neg hcap]
          simp only [capReached, Bool.and_eq_true, decide_eq_true_eq] at hcap
          have hn1 : n + 1 < m := by omega
          have := ih (n + 1) hn1
          simp only [List.length_cons]
          omega
      · rw [if_neg hm]
        exact ih n hn

/-- With a positive cap, either lookup path of `findFiles` fetches at most
`limit` identifiers. -/
theorem findFilesFS_length_le (pattern basePfx : String) (L : Nat) (hL : 0 < L)
    (manifest : Option (List String)) (population : List String) :
    (findFilesFS pattern basePfx (some L) manifest population).length ≤ L := by
  unfold findFilesFS
  cases manifest with
  | some files =>
    have := manifestLoop_length_le pattern
      (if basePfx = "" then extractFixedPrefix pattern
       else basePfx ++ extractFixedPrefix pattern)
      (match simpleSuffix pattern with
        | some s => if '/' ∈ s then none else some s
        | none => none) L files 0 hL
    simpa [findFilesManifest] using this
  | none =>
    have := remoteLoop_length_le pattern basePfx L
      (population.filter (fun k => strStartsWith k
        (if basePfx = "" then extractFixedPrefix pattern
         else basePfx ++ extractFixedPrefix pattern))) 0 hL
    simpa [findFilesRemote] using this

/-! ## Claim C9 — offset applied after the capped fetch -/

/-- C9 (confirmed): when a positive limit `L` and a positive offset `O` are
both supplied, the handler fetches at most `L` matches before dropping the
first `O` of them, so it returns at most `max (L - O) 0` results — in
particular always fewer than `L`, never the `L` results that follow the
first `O` matches. -/
theorem c9_offset_starves_limit (filePattern basePfx : String) (L O : Nat)
    (manifest : Option (List String)) (population : List String)
    (hL : 0 < L) (hO : 0 < O) :
    (handleGlob filePattern basePfx (some L) (some O) manifest population).length
        ≤ L - O ∧
    (handleGlob filePattern basePfx (some L) (some O) manifest population).length
        < L := by
  have hfound := findFilesFS_length_le filePattern basePfx L hL manifest population
  unfold handleGlob
  simp only [if_pos hO]
  set afterOffset :=
    (findFilesFS filePattern basePfx (some L) manifest population).drop O with hao
  have haol : afterOffset.length ≤ L - O := by
    rw [hao, List.length_drop]
    omega
  by_cases htake : 0 < L ∧ L < afterOffset.length
  · rw [if_pos htake]
    rw [List.length_take]
    constructor <;> omega
  · rw [if_neg htake]
    constructor <;> omega

/-- C9 witness: limit 2 with offset 1 over three matching keys returns a
single result. -/
theorem c9_witness :
    0 < 2 ∧ 0 < 1 ∧
    (handleGlob "**/*" "" (some 2) (some 1) (some ["a", "b", "c"]) []).length ≤ 2 - 1 ∧
    (handleGlob "**/*" "" (some 2) (some 1) (some ["a", "b", "c"]) []).length < 2 :=
  ⟨by decide, by decide,
   (c9_offset_starves_limit "**/*" "" 2 1 (some ["a", "b", "c"]) [] (by decide)
     (by decide)).1,
   (c9_offset_starves_limit "**/*" "" 2 1 (some ["a", "b", "c"]) [] (by decide)
     (by decide)).2⟩

/-! ## Read tool directory collapsing (`src/tools/read.ts` lines 49-86)

`handleRead` on a path ending in `/` loops: list the current directory
(`null` manifest → error text, empty → "not found", a single subdirectory
entry → descend), and otherwise returns the numbered listing with a
`Showing <collapsed>` header when at least one descent happened.  The JS
loop is `while (true)`; the model uses fuel, with `outOfFuel` as the marker
for the artificial bound, proved unreachable for the chosen fuel. -/

inductive ReadDirOutcome where
  | noManifest
  | notFoundOrEmpty
  | listing (text : String)
  | outOfFuel
deriving DecidableEq

/-- `entries.map((entry, idx) => `idx+1: entry`).join('\n')`. -/
def numberedListing (entries : List String) : String :=
  String.intercalate "\n" (entries.enum.map (fun p => Nat.repr (p.1 + 1) ++ ": " ++ p.2))

/-- One iteration of the collapsing loop: either a final outcome, or the
next `(currentPath, collapsedPath)` pair. -/
def collapseStep (files : List String) (currentPath collapsedPath : String) :
    ReadDirOutcome ⊕ (String × String) :=
  if schemaListDir files currentPath = [] then Sum.inl ReadDirOutcome.notFoundOrEmpty
  else if (schemaListDir files currentPath).length = 1 ∧
      strEndsWith ((schemaListDir files currentPath).headD "") "/" = true then
    Sum.inr (currentPath ++ (schemaListDir files currentPath).headD "",
      collapsedPath ++ (schemaListDir files currentPath).headD "")
  else
    Sum.inl (ReadDirOutcome.listing
      ((if collapsedPath = "" then "" else "Showing " ++ collapsedPath ++ "\n\n") ++
        numberedListing (schemaListDir files currentPath)))

def collapseLoop (files : List String) : Nat → String → String → ReadDirOutcome
  | 0, currentPath, collapsedPath =>
    match collapseStep files currentPath collapsedPath with
    | Sum.inl r => r
    | Sum.inr _ => ReadDirOutcome.outOfFuel
  | fuel + 1, currentPath, collapsedPath =>
    match collapseStep files currentPath collapsedPath with
    | Sum.inl r => r
    | Sum.inr (cp, c) => collapseLoop files fuel cp c

/-- Number of separators in a string: the loop measure. -/
def countSlash (s : String) : Nat := s.data.count '/'

/-- The deepest key, measured in separators. -/
def maxSlash (files : List String) : Nat :=
  (files.map (fun k => k.data.count '/')).foldr max 0

/-- The read tool's directory branch: `null` listing → "no manifest" error,
else run the collapsing loop (fuel `maxSlash + 3` is proved sufficient). -/
def handleReadDir (manifest : Option (List String)) (path : String) : ReadDirOutcome :=
  match manifest with
  | none => ReadDirOutcome.noManifest
  | some files => collapseLoop files (maxSlash files + 3) path ""

/-! ### Collapse-loop termination lemmas -/

theorem collapseStep_inl (files : List String) (cp c : String) (r : ReadDirOutcome)
    (h : collapseStep files cp c = Sum.inl r) : r ≠ ReadDirOutcome.outOfFuel := by
  unfold collapseStep at h
  by_cases he : schemaListDir files cp = []
  · rw [if_pos he] at h
    injection h with h'
    rw [← h']
    simp
  · rw [if_neg he] at h
    by_cases hd : (schemaListDir files cp).length = 1 ∧
        strEndsWith ((schemaListDir files cp).headD "") "/" = true
    · rw [if_pos hd] at h
      exact absurd h (by simp)
    · rw [if_neg hd] at h
      injection h with h'
      rw [← h']
      simp

theorem count_drop_one (c : Char) (l : List Char) :
    l.count c ≤ (l.drop 1).count c + 1 := by
  cases l with
  | nil => simp
  | cons x xs =>
    simp only [List.drop_succ_cons, List.drop_zero, List.count_cons]
    by_cases hx : x = c <;> simp [hx]

/-- The normalization loses at most two separators relative to the raw
current path. -/
theorem countSlash_le_lookupPathOf (path : String) :
    countSlash path ≤ countSlash (lookupPathOf path) + 2 := by
  unfold countSlash
  have h1 : path.data.count '/' ≤ (normalizedOf path).data.count '/' := by
    unfold normalizedOf
    split
    · exact Nat.le_refl _
    · show path.data.count '/' ≤ (path ++ "/").data.count '/'
      rw [data_append, List.count_append]
      omega
  have h2 : (normalizedOf path).data.count '/' ≤ (cleanOf path).data.count '/' + 1 := by
    unfold cleanOf
    split
    · show (normalizedOf path).data.count '/' ≤
        ((normalizedOf path).data.drop 1).count '/' + 1
      exact count_drop_one '/' (normalizedOf path).data
    · omega
  have h3 : (cleanOf path).data.count '/' ≤ (lookupPathOf path).data.count '/' + 1 := by
    unfold lookupPathOf
    split
    · rename_i hc
      rw [hc]
      decide
    · omega
  omega

theorem le_foldr_max (l : List Nat) : ∀ x ∈ l, x ≤ l.foldr max 0 := by
  induction l with
  | nil => intro x hx; exact absurd hx (List.not_mem_nil x)
  | cons y ys ih =>
    intro x hx
    rcases List.mem_cons.mp hx with h | h
    · subst h
      exact Nat.le_max_left _ _ |>.trans (Nat.le_refl _)
    · exact (ih x h).trans (Nat.le_max_right _ _)

theorem splitChar_length (c : Char) (l : List Char) :
    (splitChar c l).length = l.count c + 1 := by
  induction l with
  | nil => simp [splitChar]
  | cons x xs ih =>
    simp only [splitChar]
    by_cases hx : x = c
    · rw [if_pos hx]
      simp only [List.length_cons, List.count_cons, ih]
      simp [hx]
    · rw [if_neg hx]
      cases hsp : splitChar c xs with
      | nil => exact absurd hsp (splitChar_ne_nil c xs)
      | cons s rest =>
        rw [hsp] at ih
        simp only [List.length_cons] at ih ⊢
        simp only [List.count_cons, ih]
        simp [hx]

theorem keyParts_props (key : String) :
    ∀ p ∈ keyParts key, p ≠ [] ∧ '/' ∉ p := by
  intro p hp
  unfold keyParts at hp
  have hmem := List.mem_of_mem_filter hp
  have hpred := List.of_mem_filter hp
  refine ⟨?_, splitChar_not_mem '/' key.data p hmem⟩
  simpa [List.isEmpty_iff] using hpred

theorem keyParts_length_le (key : String) :
    (keyParts key).length ≤ key.data.count '/' + 1 := by
  unfold keyParts
  calc ((splitChar '/' key.data).filter (fun s => !s.isEmpty)).length
      ≤ (splitChar '/' key.data).length := List.length_filter_le _ _
    _ = key.data.count '/' + 1 := splitChar_length '/' key.data

theorem joinChar_count :
    ∀ ps, ps ≠ [] → (∀ p ∈ ps, '/' ∉ p) →
      (joinChar '/' ps).count '/' = ps.length - 1 := by
  intro ps
  induction ps with
  | nil => intro h _; exact absurd rfl h
  | cons p rest ih =>
    intro _ hns
    cases rest with
    | nil =>
      show (joinChar '/' [p]).count '/' = 0
      have : joinChar '/' [p] = p := rfl
      rw [this]
      exact List.count_eq_zero.mpr (hns p (List.mem_cons_self p []))
    | cons q qs =>
      rw [joinChar_cons '/' p (q :: qs) (by simp)]
      rw [List.count_append, List.count_cons]
      have hp0 : p.count '/' = 0 :=
        List.count_eq_zero.mpr (hns p (List.mem_cons_self p _))
      have := ih (by simp) (fun r hr => hns r (List.mem_cons_of_mem p hr))
      simp only [List.length_cons] at this ⊢
      simp only [beq_self_eq_true, if_true, hp0]
      omega

theorem dirPathAt_count (parts : List (List Char)) (i : Nat)
    (hi : i ≤ parts.length) (hns : ∀ p ∈ parts, '/' ∉ p) :
    (dirPathAt parts i).count '/' = i := by
  unfold dirPathAt
  by_cases h0 : 0 < i
  · rw [if_pos h0, List.count_append]
    have htne : parts.take i ≠ [] := by
      intro he
      have := congrArg List.length he
      simp only [List.length_take, List.length_nil] at this
      omega
    rw [joinChar_count (parts.take i) htne
      (fun p hp => hns p (List.mem_of_mem_take hp))]
    have hlen : (parts.take i).length = i := by
      rw [List.length_take]
      omega
    rw [hlen]
    have : List.count '/' ['/'] = 1 := by decide
    rw [this]
    omega
  · have hi0 : i = 0 := by omega
    subst hi0
    simp [joinChar]

/-- A nonempty listing means the lookup path is a proper ancestor inside
some manifest key, bounding its separator count by the deepest key. -/
theorem entries_bound (files : List String) (cp : String)
    (h : schemaListDir files cp ≠ []) :
    countSlash (lookupPathOf cp) ≤ maxSlash files := by
  unfold schemaListDir at h
  by_cases hemp : (((dirEdges files).filter
      (fun e => e.1 = (lookupPathOf cp).data)).map Prod.snd).isEmpty = true
  · rw [if_pos hemp] at h
    exact absurd rfl h
  · have hfil : (dirEdges files).filter
        (fun e => e.1 = (lookupPathOf cp).data) ≠ [] := by
      intro he
      apply hemp
      rw [he]
      rfl
    obtain ⟨e, he⟩ := List.exists_mem_of_ne_nil _ hfil
    have hmem : e ∈ dirEdges files := List.mem_of_mem_filter he
    have hpred : e.1 = (lookupPathOf cp).data := by
      have := List.of_mem_filter he
      exact of_decide_eq_true this
    unfold dirEdges at hmem
    obtain ⟨key, hkey, hein⟩ := List.mem_flatMap.mp hmem
    obtain ⟨i, hi, hei⟩ := List.mem_map.mp hein
    have hilt : i < (keyParts key).length := List.mem_range.mp hi
    have hcount : e.1.count '/' = i := by
      rw [← hei]
      exact dirPathAt_count (keyParts key) i (Nat.le_of_lt hilt)
        (fun p hp => (keyParts_props key p hp).2)
    have hkc : key.data.count '/' ≤ maxSlash files :=
      le_foldr_max _ _ (List.mem_map_of_mem (fun k => k.data.count '/') hkey)
    have hlen := keyParts_length_le key
    show (lookupPathOf cp).data.count '/' ≤ maxSlash files
    rw [← hpred, hcount]
    omega

theorem strEndsWith_slash_mem (s : String)
    (h : strEndsWith s "/" = true) : '/' ∈ s.data := by
  have hs : ['/'] <:+ s.data := by
    rw [← List.isSuffixOf_iff_suffix]
    exact h
  exact hs.subset (List.mem_singleton_self '/')

/-- A descent step appends exactly one separator to the current path (the
single child entry is one nonempty segment plus a trailing `/`), and only
happens when the listing is nonempty. -/
theorem collapseStep_inr (files : List String) (cp c cp' c' : String)
    (h : collapseStep files cp c = Sum.inr (cp', c')) :
    countSlash cp' = countSlash cp + 1 ∧ schemaListDir files cp ≠ [] := by
  unfold collapseStep at h
  by_cases he : schemaListDir files cp = []
  · rw [if_pos he] at h
    exact absurd h (by simp)
  · rw [if_neg he] at h
    by_cases hd : (schemaListDir files cp).length = 1 ∧
        strEndsWith ((schemaListDir files cp).headD "") "/" = true
    · rw [if_pos hd] at h
      injection h with h'
      injection h' with h1 h2
      refine ⟨?_, he⟩
      set e0 := (schemaListDir files cp).headD "" with he0
      have hmeme0 : e0 ∈ schemaListDir files cp := by
        cases hsl : schemaListDir files cp with
        | nil => exact absurd hsl he
        | cons x xs => rw [he0, hsl]; exact List.mem_cons_self x xs
      have hds : countSlash e0 = 1 := by
        unfold schemaListDir at hmeme0
        rw [if_neg (by
          intro hx
          apply he
          unfold schemaListDir
          rw [if_pos hx])] at hmeme0
        obtain ⟨l, hl, hle0⟩ := List.mem_map.mp hmeme0
        have hl2 : l ∈ (((dirEdges files).filter
            (fun e => e.1 = (lookupPathOf cp).data)).map Prod.snd).dedup :=
          (List.perm_insertionSort (fun a b : List Char => a ≤ b) _).mem_iff.mp hl
        have hl3 := List.mem_dedup.mp hl2
        obtain ⟨e, hef, hesnd⟩ := List.mem_map.mp hl3
        have hemem : e ∈ dirEdges files := List.mem_of_mem_filter hef
        unfold dirEdges at hemem
        obtain ⟨key, hkey, hein⟩ := List.mem_flatMap.mp hemem
        obtain ⟨i, hi, hei⟩ := List.mem_map.mp hein
        have hilt : i < (keyParts key).length := List.mem_range.mp hi
        have hpartmem : (keyParts key).getD i [] ∈ keyParts key := by
          rw [List.getD_eq_getElem (keyParts key) [] hilt]
          exact List.getElem_mem hilt
        obtain ⟨hpne, hpns⟩ := keyParts_props key _ hpartmem
        have hsnd : e.2 = l := hesnd
        have he0l : e0.data = l := by rw [← hle0]
        by_cases hlast : i = (keyParts key).length - 1
        · exfalso
          have hthis : e.2 = (keyParts key).getD i [] := by
            rw [← hei]
            simp [hlast]
          have he0eq : e0.data = (keyParts key).getD i [] := by
            rw [he0l, ← hsnd, hthis]
          exact hpns (he0eq ▸ strEndsWith_slash_mem e0 hd.2)
        · have hshape : e.2 = (keyParts key).getD i [] ++ ['/'] := by
            rw [← hei]
            simp [hlast]
          show e0.data.count '/' = 1
          rw [he0l, ← hsnd, hshape, List.count_append,
            List.count_eq_zero.mpr hpns]
          decide
      rw [← h1, countSlash, data_append, List.count_append]
      show cp.data.count '/' + e0.data.count '/' = _
      rw [show e0.data.count '/' = 1 from hds]
      rfl
    · rw [if_neg hd] at h
      exact absurd h (by simp)

/-- The collapsing loop never exhausts its fuel: every descent adds a
separator to the current path, while a nonempty listing bounds the lookup
path's separators by the deepest manifest key. -/
theorem collapseLoop_safe (files : List String) :
    ∀ fuel cp c, maxSlash files + 3 ≤ fuel + countSlash cp →
      collapseLoop files fuel cp c ≠ ReadDirOutcome.outOfFuel := by
  intro fuel
  induction fuel with
  | zero =>
    intro cp c hbound
    show (match collapseStep files cp c with
      | Sum.inl r => r
      | Sum.inr _ => ReadDirOutcome.outOfFuel) ≠ _
    cases hstep : collapseStep files cp c with
    | inl r => exact collapseStep_inl files cp c r hstep
    | inr p =>
      exfalso
      obtain ⟨_, hne⟩ := collapseStep_inr files cp c p.1 p.2 (by rw [hstep])
      have h1 := entries_bound files cp hne
      have h2 := countSlash_le_lookupPathOf cp
      omega
  | succ fuel ih =>
    intro cp c hbound
    show (match collapseStep files cp c with
      | Sum.inl r => r
      | Sum.inr (cp', c') => collapseLoop files fuel cp' c') ≠ _
    cases hstep : collapseStep files cp c with
    | inl r => exact collapseStep_inl files cp c r hstep
    | inr p =>
      obtain ⟨hc, _⟩ := collapseStep_inr files cp c p.1 p.2 (by rw [hstep])
      exact ih p.1 p.2 (by omega)

/-! ## Claim C10 — single-child directory collapsing -/

/-- C10 (confirmed): the read tool's directory branch descends while the
listing has exactly one entry which is a subdirectory, and then returns the
numbered listing of the first descendant with more than one entry or
containing a file, prefixed by a `Showing <collapsed path>` header — which
can describe a strict descendant of the requested directory — and the
collapsing loop terminates for every finite manifest (the fuelled model
never reaches its artificial bound). -/
theorem c10_read_collapse :
    (∀ manifest path, handleReadDir manifest path ≠ ReadDirOutcome.outOfFuel) ∧
    (∀ path, handleReadDir none path = ReadDirOutcome.noManifest) ∧
    handleReadDir (some ["a/b/c/x.txt", "a/b/c/y.txt"]) "a/" =
      ReadDirOutcome.listing "Showing b/c/\n\n1: x.txt\n2: y.txt" ∧
    handleReadDir (some ["a/b/c/x.txt", "a/b/c/y.txt"]) "zzz/" =
      ReadDirOutcome.notFoundOrEmpty := by
  refine ⟨?_, fun path => rfl, ?_, ?_⟩
  · intro manifest path
    cases manifest with
    | none => simp [handleReadDir]
    | some files =>
      exact collapseLoop_safe files (maxSlash files + 3) path ""
        (Nat.le_add_right _ _)
  · set_option maxRecDepth 40000 in decide
  · set_option maxRecDepth 40000 in decide
